import Mathlib

/-!
Verification development for the PDF conversion backend (`src/main.py`).

The Python source is shallowly embedded below.  Coordinates (PDF points)
are modelled by exact rationals `ℚ`; Python's floating point arithmetic
on these values is treated as exact.  Library calls that can raise
(`add_picture`, `add_run`, `Table.extract`, reading a span colour) are
modelled by explicit success flags / `Except` results.  Each embedded
definition keeps the name of the Python function it translates where
Lean's lexical rules allow it.
-/

namespace PdfBackend

/-! ## Bounding boxes (source page units, origin top-left) -/

/-- A bounding box `(x0, top, x1, bottom)` in source page units. -/
structure BBox where
  x0 : ℚ
  top : ℚ
  x1 : ℚ
  bottom : ℚ
deriving DecidableEq, Repr

/-! ## `is_inside_table` (src/main.py lines 113–121)

`is_inside_table(word_bbox, table_bboxes)` computes the midpoint of the
word's bbox and returns `True` iff it lies inside some table bbox
(inclusive comparisons on all four sides). -/

/-- Midpoint-containment test translated from `is_inside_table`:
the word's bbox midpoint `(w_mid_x, w_mid_y)` is tested against each
table bbox with inclusive inequalities, returning at the first hit. -/
def is_inside_table (word_bbox : BBox) (table_bboxes : List BBox) : Bool :=
  let w_mid_x := (word_bbox.x0 + word_bbox.x1) / 2
  let w_mid_y := (word_bbox.top + word_bbox.bottom) / 2
  table_bboxes.any (fun tbox =>
    decide (tbox.x0 ≤ w_mid_x ∧ w_mid_x ≤ tbox.x1 ∧
            tbox.top ≤ w_mid_y ∧ w_mid_y ≤ tbox.bottom))

/-- Specification-level predicate: the center point of `w` falls within
table bbox `t` (the spec's "midpoint containment"). -/
def midpointWithin (t w : BBox) : Prop :=
  t.x0 ≤ (w.x0 + w.x1) / 2 ∧ (w.x0 + w.x1) / 2 ≤ t.x1 ∧
  t.top ≤ (w.top + w.bottom) / 2 ∧ (w.top + w.bottom) / 2 ≤ t.bottom

instance (t w : BBox) : Decidable (midpointWithin t w) := by
  unfold midpointWithin; infer_instance

/-! ## Words and the excel pipeline's word filter (src/main.py line 179) -/

/-- A word as produced by `pdfplumber`'s `extract_words`: a text together
with its bbox coordinates `x0`, `top`, `x1`, `bottom`. -/
structure Word where
  text : String
  x0 : ℚ
  top : ℚ
  x1 : ℚ
  bottom : ℚ
deriving DecidableEq, Repr

/-- The bbox tuple `(w['x0'], w['top'], w['x1'], w['bottom'])` passed to
`is_inside_table` in `convert_pdf_to_excel`. -/
def Word.bbox (w : Word) : BBox :=
  ⟨w.x0, w.top, w.x1, w.bottom⟩

/-- `non_table_words = [w for w in words if not is_inside_table(..., table_bboxes)]`
(src/main.py line 179). -/
def non_table_words (words : List Word) (table_bboxes : List BBox) : List Word :=
  words.filter (fun w => !is_inside_table w.bbox table_bboxes)

/-! ## Upload validation and endpoint guards (src/main.py lines 62–71)

`validate_file` first checks that the lowercased filename ends in
".pdf" (raising HTTP 400 otherwise), then measures the upload size via
seek/tell and raises HTTP 400 when it exceeds `MAX_FILE_SIZE`.  Every
conversion endpoint calls `validate_file` before `tempfile.mkdtemp()`
and before copying the upload's contents to disk. -/

/-- `MAX_FILE_SIZE = 25 * 1024 * 1024` (src/main.py line 34). -/
def MAX_FILE_SIZE : Nat := 25 * 1024 * 1024

/-- An uploaded file as seen by `validate_file`: its client-supplied
filename and its byte size (obtained by seek/tell, not by reading the
contents). -/
structure Upload where
  filename : String
  size : Nat
deriving DecidableEq, Repr

/-- Model of Python's `file.filename.lower().endswith(".pdf")`: the
filename's characters are lowercased and tested for the suffix
`.pdf`. -/
def lower_endswith_pdf (name : String) : Bool :=
  ['.', 'p', 'd', 'f'].isSuffixOf (name.data.map Char.toLower)

/-- Result of `validate_file`: `some (status, detail)` models a raised
`HTTPException`, `none` means validation passed. -/
def validate_file (u : Upload) : Option (Nat × String) :=
  if ¬ lower_endswith_pdf u.filename then
    some (400, "File harus format PDF")
  else if u.size > MAX_FILE_SIZE then
    some (400, "Ukuran file terlalu besar")
  else
    none

/-- Observable outcome of running one conversion endpoint on an upload:
the HTTP-level response together with whether a scratch directory was
created (`tempfile.mkdtemp`) and whether the upload's contents were read
(`shutil.copyfileobj`). -/
structure RequestOutcome where
  failedWithStatus : Option Nat
  scratchCreated : Bool
  contentsRead : Bool
deriving DecidableEq, Repr

/-- Shared prefix of all four conversion endpoints: `validate_file`
runs first; only when it passes does the endpoint create the scratch
directory and copy the uploaded bytes into it. -/
def endpoint_guard (u : Upload) : RequestOutcome :=
  match validate_file u with
  | some (status, _) => ⟨some status, false, false⟩
  | none => ⟨none, true, true⟩

/-- `POST /convert/pdf-to-docx` entry (src/main.py line 83): calls
`validate_file(file)` before any scratch storage exists. -/
def convert_pdf_to_docx_entry (u : Upload) : RequestOutcome := endpoint_guard u

/-- `POST /convert/pdf-to-excel` entry (src/main.py line 153). -/
def convert_pdf_to_excel_entry (u : Upload) : RequestOutcome := endpoint_guard u

/-- `POST /convert/pdf-to-ppt` entry (src/main.py line 259). -/
def convert_pdf_to_ppt_entry (u : Upload) : RequestOutcome := endpoint_guard u

/-- `POST /convert/pdf-to-image` entry (src/main.py line 412). -/
def convert_pdf_to_image_entry (u : Upload) : RequestOutcome := endpoint_guard u

/-! ## Image target (src/main.py lines 405–433)

`convert_pdf_to_image` rasterizes each page at 200 dpi, saves it as
`page_{i+1}.{output_format}` and writes every such file into one zip
archive, which is returned as the response for every page count —
there is no single-image branch. -/

/-- Name given to page `i` (0-based) inside the zip:
`f"page_{i+1}.{output_format}"`. -/
def pageImageName (i : Nat) (output_format : String) : String :=
  "page_" ++ toString (i + 1) ++ "." ++ output_format

/-- Shape of an image-target response: either a zip archive with the
given entry names (in insertion order) or a single image file.  The
`singleFile` form never occurs in the code; it is the alternative the
spec describes for one-page documents. -/
inductive ImageResult where
  | zipArchive (entries : List String)
  | singleFile (name : String)
deriving DecidableEq, Repr

/-- Image conversion translated from `convert_pdf_to_image`: one zip
entry per page, named `page_{i+1}.{output_format}`, always packaged
into a zip archive. -/
def convert_pdf_to_image (pageCount : Nat) (output_format : String) : ImageResult :=
  ImageResult.zipArchive
    ((List.range pageCount).map (fun i => pageImageName i output_format))

/-! ## Slide canvas size (src/main.py lines 274–283)

When the document has at least one page, `convert_pdf_to_ppt` sets
`prs.slide_width = int((width_pt / 72) * 914400)` and likewise for the
height, from the FIRST page's dimensions. -/

/-- Python's `int()` applied to an exact rational: truncation toward
zero. -/
def pyInt (q : ℚ) : ℤ :=
  if q < 0 then ⌈q⌉ else ⌊q⌋

/-- Slide canvas size in EMUs, translated from the `if len(doc) > 0`
block: `none` when the document has no pages (the default canvas is
kept), otherwise the first page's width and height in points are each
divided by 72 and multiplied by 914400, then truncated by `int()`. -/
def slideSizeEMU (pageSizes : List (ℚ × ℚ)) : Option (ℤ × ℤ) :=
  match pageSizes with
  | [] => none
  | (width_pt, height_pt) :: _ =>
    some (pyInt ((width_pt / 72) * 914400), pyInt ((height_pt / 72) * 914400))

/-! ## Line clustering (src/main.py lines 123–146)

`cluster_words_into_lines(words, tolerance=3)` sorts the words by
`top` (Python's `sorted` — a stable merge sort), walks them in order
appending the current word to the current line when
`abs(word['top'] - prev_word['top']) < tolerance` (with `prev_word`
the last word appended, i.e. the previous word in sorted order) and
starting a new line otherwise; then, per line, sorts by `x0`, joins
the texts with a single space and takes the coordinate-wise
min/max envelope as the line bbox. -/

/-- Boolean comparison used to sort words by `top`. -/
def leTop (a b : Word) : Bool := decide (a.top ≤ b.top)

/-- Boolean comparison used to sort a line's words by `x0`. -/
def leX0 (a b : Word) : Bool := decide (a.x0 ≤ b.x0)

/-- The grouping loop of `cluster_words_into_lines`: `prev` is
`current_line[-1]` (the word appended last) and `curRev` is the current
line with most-recent word first.  A word within `tolerance` of `prev`
joins the current line; otherwise the current line is flushed and a
fresh line starts. -/
def clusterLoop (tolerance : ℚ) (prev : Word) (curRev : List Word) :
    List Word → List (List Word)
  | [] => [curRev.reverse]
  | w :: rest =>
    if |w.top - prev.top| < tolerance then
      clusterLoop tolerance w (w :: curRev) rest
    else
      curRev.reverse :: clusterLoop tolerance w [w] rest

/-- Grouping of an already-`top`-sorted word list into raw lines,
exactly as the loop in `cluster_words_into_lines` does. -/
def groupLines (tolerance : ℚ) : List Word → List (List Word)
  | [] => []
  | w :: rest => clusterLoop tolerance w [w] rest

/-- Splits off the words that join the line currently ending in `prev`:
the first component collects successive words within `tolerance` of
their predecessor, the second is the remainder (whose head, if any,
triggered a line break).  This is the functional reading of one
flush-cycle of `clusterLoop`, used to reason about it. -/
def takeChunk (tolerance : ℚ) (prev : Word) : List Word → List Word × List Word
  | [] => ([], [])
  | w :: rest =>
    if |w.top - prev.top| < tolerance then
      ((w :: (takeChunk tolerance w rest).1), (takeChunk tolerance w rest).2)
    else
      ([], w :: rest)

/-- Sortedness of a word list by the `top` coordinate (the state after
`sorted(words, key=lambda w: w['top'])`). -/
def SortedByTop (l : List Word) : Prop :=
  List.Pairwise (fun a b : Word => a.top ≤ b.top) l

/-- A clustered text line: joined text plus envelope coordinates, as
built in the `final_lines` loop. -/
structure Line where
  text : String
  x0 : ℚ
  top : ℚ
  x1 : ℚ
  bottom : ℚ
deriving DecidableEq, Repr

/-- Envelope/min fold over a nonempty list with an initial value, used
for Python's `min(...)`/`max(...)` over a line's words. -/
def foldQ (f : ℚ → ℚ → ℚ) (sel : Word → ℚ) (g : List Word) (init : ℚ) : ℚ :=
  g.foldl (fun acc w => f acc (sel w)) init

/-- One entry of `final_lines`: the line's words are sorted by `x0`,
their texts joined with a single space, and the bbox is the min/max
envelope of the words' bboxes.  The empty group never arises; it is
mapped to a degenerate line. -/
def lineOf (g : List Word) : Line :=
  match g with
  | [] => ⟨"", 0, 0, 0, 0⟩
  | w :: ws =>
    let sortedL := (w :: ws).mergeSort leX0
    { text := String.intercalate " " (sortedL.map Word.text)
      x0 := foldQ min Word.x0 ws w.x0
      top := foldQ min Word.top ws w.top
      x1 := foldQ max Word.x1 ws w.x1
      bottom := foldQ max Word.bottom ws w.bottom }

/-- `cluster_words_into_lines` translated from src/main.py lines
123–146 (the Python default `tolerance=3` is passed explicitly at the
call site, line 180). -/
def cluster_words_into_lines (words : List Word) (tolerance : ℚ) : List Line :=
  (groupLines tolerance (words.mergeSort leTop)).map lineOf

/-! ## Spreadsheet page elements (src/main.py lines 182–232)

Per page, `convert_pdf_to_excel` builds `page_elements`: one entry per
detected table (carrying `cols`, computed from a guarded first
extraction) and one per clustered text line; the list is sorted by
`top`.  Walking the sorted list, a text line is written into column 1
with an alignment derived from its geometry; a centered line scans the
remaining elements for the next table and is merged across that
table's `cols` columns when `cols > 1`.  A table element re-runs
`element['obj'].extract()` at line 214 — this second call is NOT
guarded, so a table whose extraction raises aborts the whole request
(the endpoint's outer `except` at line 248 answers HTTP 500). -/

/-- Result of a table's `t.extract()` call (the same deterministic
result at both call sites: the guarded build-time call at lines
184–187 and the unguarded emission-time call at line 214):
`extractFailed` models a raised exception, `extracted rows` a
successful return.  A `None` return behaves exactly like
`extracted []` (both are falsy), so it is modelled by the empty row
list. -/
inductive TableExtract where
  | extractFailed
  | extracted (rows : List (List (Option String)))
deriving DecidableEq, Repr

/-- `col_count` as computed in src/main.py lines 183–188:
`len(t_data[0])` when extraction succeeded with at least one row,
`1` when it yielded no rows, and `1` when it raised. -/
def col_count : TableExtract → Nat
  | TableExtract.extractFailed => 1
  | TableExtract.extracted [] => 1
  | TableExtract.extracted (r :: _) => r.length

/-- One entry of `page_elements`: a table (with its `top`, the `cols`
value stored by the build loop — `col_count` of the guarded build-time
extraction — and the table object's extraction result `ext`, re-used
unguarded at emission time) or a text line (with its `top`, `x0`, `x1`
and joined text). -/
inductive PElem where
  | table (top : ℚ) (cols : Nat) (ext : TableExtract)
  | text (top : ℚ) (x0 x1 : ℚ) (txt : String)
deriving DecidableEq, Repr

/-- Sequencing key: `t.bbox[1]` for a table, `l['top']` for a line. -/
def PElem.top : PElem → ℚ
  | PElem.table t _ _ => t
  | PElem.text t _ _ _ => t

/-- Centredness test at src/main.py line 199:
`abs(text_center - page_width/2) < page_width * 0.1` with
`text_center = (x0 + x1)/2`. -/
def isCentered (page_width x0 x1 : ℚ) : Bool :=
  decide (|((x0 + x1) / 2) - page_width / 2| < page_width * (1/10))

/-- The forward scan at src/main.py lines 202–205: walk the remaining
elements and return the `cols` of the first table found, if any. -/
def firstTableCols : List PElem → Option Nat
  | [] => none
  | PElem.table _ c _ :: _ => some c
  | PElem.text _ _ _ _ :: rest => firstTableCols rest

/-- Horizontal alignment applied to a free-text cell. -/
inductive Align where
  | left
  | center
  | right
deriving DecidableEq, Repr

/-- Emitted output for one text element: cell text, alignment, and
`merge = some c` when `merge_cells(start_column=1, end_column=c)` was
invoked for it. -/
structure TextCellOut where
  txt : String
  align : Align
  merge : Option Nat
deriving DecidableEq, Repr

/-- Emitted output for one element of the per-page walk: a single text
row or a block of table rows (cells with `None` replaced by `""`). -/
inductive RowOut where
  | textRow (c : TextCellOut)
  | tableBlock (rows : List (List String))
deriving DecidableEq, Repr

/-- `clean_data` row transformation (src/main.py line 216):
`[c if c is not None else "" for c in r]`. -/
def clean_row (r : List (Option String)) : List String :=
  r.map (fun c => c.getD "")

/-- The cell written for one text element (lines 196–211): the
alignment branch (centered first, then the `x0 > 0.6 * page_width`
right test, else left) and, for a centered line, the merge decision
`target_merge_col > 1` after the forward scan over the remaining
elements. -/
def textCellOf (page_width x0 x1 : ℚ) (s : String) (rest : List PElem) : RowOut :=
  if isCentered page_width x0 x1 then
    let target_merge_col := (firstTableCols rest).getD 1
    RowOut.textRow ⟨s, Align.center,
      if target_merge_col > 1 then some target_merge_col else none⟩
  else if x0 > page_width * (6/10) then
    RowOut.textRow ⟨s, Align.right, none⟩
  else
    RowOut.textRow ⟨s, Align.left, none⟩

/-- The per-page emission walk of `convert_pdf_to_excel` (lines
194–231), restricted to the observables the layout logic determines.
A text element contributes its cell per `textCellOf`.  A table element
re-runs its extraction at line 214 with NO `try/except`: when the
extraction raises, the exception reaches the endpoint's outer `except`
and the whole request fails (modelled by `Except.error`, so no output
rows survive); when it returns rows, `if not data: continue` skips an
empty result and the cleaned rows are written otherwise. -/
def emitElements (page_width : ℚ) : List PElem → Except String (List RowOut)
  | [] => Except.ok []
  | PElem.text _ x0 x1 s :: rest =>
    match emitElements page_width rest with
    | Except.error e => Except.error e
    | Except.ok rows => Except.ok (textCellOf page_width x0 x1 s rest :: rows)
  | PElem.table _ _ ext :: rest =>
    match ext with
    | TableExtract.extractFailed => Except.error "table extract raised"
    | TableExtract.extracted data =>
      match emitElements page_width rest with
      | Except.error e => Except.error e
      | Except.ok rows =>
        if data = [] then Except.ok rows
        else Except.ok (RowOut.tableBlock (data.map clean_row) :: rows)

/-- Specification-side merge rule, written from the claim's words:
scan the remaining elements of the page for the next table element;
if one is found with column count `c > 1`, merge across exactly `c`
columns; if no table follows, or the found table has a single column,
do not merge. -/
def mergeHintSpec (rest : List PElem) : Option Nat :=
  match rest.find? (fun e => match e with
    | PElem.table _ _ _ => true
    | PElem.text _ _ _ _ => false) with
  | some (PElem.table _ c _) => if 1 < c then some c else none
  | _ => none

/-! ## Slide emission (src/main.py lines 285–391)

Per page, `convert_pdf_to_ppt` walks the page's blocks.  An image
block is written to a scratch file and then `add_picture` is called
inside `try/except` — a failure is logged and the picture skipped.  A
text block produces one textbox per line; per span, empty text (other
than a single space) is filtered out, then `p.add_run()` is called and
the run's size set — these calls are NOT guarded, so an exception here
propagates to the endpoint's outer `except` and the whole request
fails with HTTP 500.  Only the colour lookup/assignment sits in its
own `try/except`, defaulting to black.  Library failures are modelled
by explicit success flags on the primitives. -/

/-- One text span of a fitz text line: its text, size, packed colour,
style flags, plus two oracles for the two library interactions —
whether reading/assigning the span colour succeeds (the inner
`try` at line 373) and whether `add_run` and the unguarded property
assignments succeed. -/
structure Span where
  text : String
  size : ℚ
  color : Nat
  flags : Nat
  colorReadOk : Bool
  addRunOk : Bool
deriving DecidableEq, Repr

/-- One fitz text line: its bbox and spans. -/
structure SlideLine where
  bbox : BBox
  spans : List Span
deriving DecidableEq, Repr

/-- One fitz page block: a raster image (with an oracle for whether
`add_picture` succeeds on it) or a text block. -/
inductive Block where
  | imageBlock (bbox : BBox) (addPictureOk : Bool)
  | textBlock (lines : List SlideLine)
deriving DecidableEq, Repr

/-- A text run as it ends up in the presentation: text, size, RGB
colour triple, bold/italic flags. -/
structure Run where
  text : String
  size : ℚ
  rgb : Nat × Nat × Nat
  bold : Bool
  italic : Bool
deriving DecidableEq, Repr

/-- A shape added to a slide. -/
inductive Shape where
  | picture (bbox : BBox)
  | textbox (bbox : BBox) (runs : List Run)
deriving DecidableEq, Repr

/-- RGB decomposition of a span's colour exactly as at lines 373–381:
`(c>>16)&0xFF, (c>>8)&0xFF, c&0xFF` when the colour interaction
succeeds, black when the inner `except` catches. -/
def spanRGB (s : Span) : Nat × Nat × Nat :=
  if s.colorReadOk then
    ((s.color >>> 16) &&& 255, (s.color >>> 8) &&& 255, s.color &&& 255)
  else (0, 0, 0)

/-- Model of Python's falsy test `not text.strip()`: true iff every
character of the text is whitespace. -/
def strips_to_empty (s : String) : Bool :=
  s.data.all (fun c => c.isWhitespace)

/-- Emission of one span (lines 356–389): spans whose text strips to
empty are skipped unless the text is exactly one space; `add_run` and
the size assignment are unguarded, so their failure is an error; bold
and italic come from flag bits 16 and 2. -/
def emitSpan (s : Span) : Except String (Option Run) :=
  if strips_to_empty s.text ∧ s.text ≠ " " then Except.ok none
  else if ¬ s.addRunOk then Except.error "add_run failed"
  else Except.ok (some
    { text := s.text
      size := s.size
      rgb := spanRGB s
      bold := s.flags &&& 16 != 0
      italic := s.flags &&& 2 != 0 })

/-- Emission of a line's spans in order; the first failing span aborts. -/
def emitRuns : List Span → Except String (List Run)
  | [] => Except.ok []
  | s :: rest =>
    match emitSpan s with
    | Except.error e => Except.error e
    | Except.ok none => emitRuns rest
    | Except.ok (some r) =>
      match emitRuns rest with
      | Except.error e => Except.error e
      | Except.ok rs => Except.ok (r :: rs)

/-- Emission of a text block: one textbox per line (lines 326–353). -/
def emitTextLines : List SlideLine → Except String (List Shape)
  | [] => Except.ok []
  | l :: rest =>
    match emitRuns l.spans with
    | Except.error e => Except.error e
    | Except.ok rs =>
      match emitTextLines rest with
      | Except.error e => Except.error e
      | Except.ok shapes => Except.ok (Shape.textbox l.bbox rs :: shapes)

/-- Emission of a page's blocks (lines 299–389): a failing
`add_picture` is caught and the picture skipped; a text-block failure
propagates. -/
def emitBlocks : List Block → Except String (List Shape)
  | [] => Except.ok []
  | Block.imageBlock bbox pOk :: rest =>
    match emitBlocks rest with
    | Except.error e => Except.error e
    | Except.ok shapes =>
      if pOk then Except.ok (Shape.picture bbox :: shapes) else Except.ok shapes
  | Block.textBlock lines :: rest =>
    match emitTextLines lines with
    | Except.error e => Except.error e
    | Except.ok ts =>
      match emitBlocks rest with
      | Except.error e => Except.error e
      | Except.ok shapes => Except.ok (ts ++ shapes)

/-- Whole-document slide emission: one slide per page; any uncaught
per-page failure reaches the endpoint's outer `except` and the request
fails (HTTP 500), producing no output document. -/
def convert_pdf_to_ppt_slides : List (List Block) → Except String (List (List Shape))
  | [] => Except.ok []
  | p :: pages =>
    match emitBlocks p with
    | Except.error e => Except.error e
    | Except.ok shapes =>
      match convert_pdf_to_ppt_slides pages with
      | Except.error e => Except.error e
      | Except.ok slides => Except.ok (shapes :: slides)

/-- Total "surviving shapes" function: what a page's emission yields
when no text-run failure occurs — pictures whose `add_picture` failed
are dropped, every line becomes a textbox with its non-skipped runs. -/
def survivingRun (s : Span) : Option Run :=
  if strips_to_empty s.text ∧ s.text ≠ " " then none
  else some
    { text := s.text
      size := s.size
      rgb := spanRGB s
      bold := s.flags &&& 16 != 0
      italic := s.flags &&& 2 != 0 }

/-- Surviving shapes of one block. -/
def survivingShapes : Block → List Shape
  | Block.imageBlock bbox pOk => if pOk then [Shape.picture bbox] else []
  | Block.textBlock lines =>
    lines.map (fun l => Shape.textbox l.bbox (l.spans.filterMap survivingRun))

/-- Surviving shapes of one page. -/
def survivingPage (blocks : List Block) : List Shape :=
  blocks.flatMap survivingShapes

/-- Whether every span of a block has a succeeding `add_run`. -/
def blockRunsOk : Block → Prop
  | Block.imageBlock _ _ => True
  | Block.textBlock lines => ∀ l ∈ lines, ∀ s ∈ l.spans, s.addRunOk = true

instance : DecidablePred blockRunsOk := fun b => by
  unfold blockRunsOk; cases b <;> infer_instance

/-! ## Helper lemmas -/

/-- The loop-with-break at src/main.py lines 202–206 computes exactly
the claim's forward-scan rule `mergeHintSpec`. -/
lemma mergeHint_code_eq_spec (rest : List PElem) :
    (if 1 < (firstTableCols rest).getD 1 then some ((firstTableCols rest).getD 1)
     else none) = mergeHintSpec rest := by
  induction rest with
  | nil => simp [firstTableCols, mergeHintSpec]
  | cons e rest ih =>
    cases e with
    | table t c d => simp [firstTableCols, mergeHintSpec, List.find?]
    | text t x0 x1 s =>
      simpa [firstTableCols, mergeHintSpec, List.find?] using ih

/-- If every table element of a list has a single column, the forward
scan finds no multi-column table. -/
lemma firstTableCols_all_one {rest : List PElem}
    (hall : ∀ t c d, PElem.table t c d ∈ rest → c = 1) :
    ∀ c, firstTableCols rest = some c → c = 1 := by
  induction rest with
  | nil => intro c h; simp [firstTableCols] at h
  | cons e rest ih =>
    intro c h
    cases e with
    | table t c' d =>
      simp [firstTableCols] at h
      exact h ▸ hall t c' d (List.mem_cons_self _ _)
    | text t x0 x1 s =>
      exact ih (fun t' c' d' hm => hall t' c' d' (List.mem_cons_of_mem _ hm)) c
        (by simpa [firstTableCols] using h)

/-! ### Clustering lemmas -/

/-- The two components of `takeChunk` concatenate back to the input. -/
lemma takeChunk_append (tol : ℚ) (l : List Word) :
    ∀ p, (takeChunk tol p l).1 ++ (takeChunk tol p l).2 = l := by
  induction l with
  | nil => intro p; rfl
  | cons w rest ih =>
    intro p
    by_cases h : |w.top - p.top| < tol
    · simp [takeChunk, h, ih w]
    · simp [takeChunk, h]

/-- The remainder of `takeChunk` is no longer than the input. -/
lemma takeChunk_snd_length (tol : ℚ) (l : List Word) (p : Word) :
    (takeChunk tol p l).2.length ≤ l.length := by
  have h := congrArg List.length (takeChunk_append tol l p)
  simp only [List.length_append] at h
  omega

/-- Every chunk, together with the word it grew from, is a chain of
successive `top` distances below the tolerance. -/
lemma takeChunk_chain (tol : ℚ) (l : List Word) :
    ∀ p, List.Chain' (fun a b => |b.top - a.top| < tol)
      (p :: (takeChunk tol p l).1) := by
  induction l with
  | nil => intro p; simp [takeChunk]
  | cons w rest ih =>
    intro p
    by_cases h : |w.top - p.top| < tol
    · simp only [takeChunk, h, if_true]
      exact List.chain'_cons.mpr ⟨h, ih w⟩
    · simp [takeChunk, h]

/-- When `takeChunk` leaves a remainder, its head is at distance at
least the tolerance from the last word of the chunk. -/
lemma takeChunk_boundary (tol : ℚ) (l : List Word) :
    ∀ p b a, (takeChunk tol p l).2.head? = some b →
      (p :: (takeChunk tol p l).1).getLast? = some a →
      tol ≤ |b.top - a.top| := by
  induction l with
  | nil => intro p b a hb _; simp [takeChunk] at hb
  | cons w rest ih =>
    intro p b a hb ha
    by_cases h : |w.top - p.top| < tol
    · simp only [takeChunk, h, if_true] at hb ha
      rw [List.getLast?_cons_cons] at ha
      exact ih w b a hb ha
    · simp only [takeChunk, h, if_false] at hb ha
      simp only [List.head?_cons, Option.some.injEq] at hb
      simp only [List.getLast?_singleton, Option.some.injEq] at ha
      subst hb; subst ha
      exact not_lt.mp h

/-- One flush-cycle of `clusterLoop` in terms of `takeChunk`. -/
lemma clusterLoop_eq (tol : ℚ) (l : List Word) :
    ∀ p curRev, clusterLoop tol p curRev l =
      (curRev.reverse ++ (takeChunk tol p l).1) ::
        groupLines tol (takeChunk tol p l).2 := by
  induction l with
  | nil => intro p c; simp [clusterLoop, takeChunk, groupLines]
  | cons w rest ih =>
    intro p c
    by_cases h : |w.top - p.top| < tol
    · simp only [clusterLoop, h, if_true, takeChunk, ih w]
      simp
    · simp only [clusterLoop, h, if_false, takeChunk, if_neg h]
      simp [groupLines]

/-- `groupLines` peels off one chunk at a time. -/
lemma groupLines_cons (tol : ℚ) (w : Word) (rest : List Word) :
    groupLines tol (w :: rest) =
      (w :: (takeChunk tol w rest).1) ::
        groupLines tol (takeChunk tol w rest).2 := by
  have h : groupLines tol (w :: rest) = clusterLoop tol w [w] rest := rfl
  rw [h, clusterLoop_eq]
  simp

/-- The produced groups concatenate back to the input list. -/
lemma groupLines_flatten (tol : ℚ) : (l : List Word) →
    (groupLines tol l).flatten = l
  | [] => by simp [groupLines]
  | w :: rest => by
    rw [groupLines_cons]
    have ih := groupLines_flatten tol (takeChunk tol w rest).2
    simp only [List.flatten_cons, ih, List.cons_append]
    rw [takeChunk_append]
  termination_by l => l.length
  decreasing_by
    simp only [List.length_cons]
    exact Nat.lt_succ_of_le (takeChunk_snd_length tol rest w)

/-- No produced group is empty. -/
lemma groupLines_ne_nil (tol : ℚ) : (l : List Word) →
    ∀ g ∈ groupLines tol l, g ≠ []
  | [] => by simp [groupLines]
  | w :: rest => by
    rw [groupLines_cons]
    intro g hg
    rcases List.mem_cons.mp hg with rfl | hg'
    · simp
    · exact groupLines_ne_nil tol (takeChunk tol w rest).2 g hg'
  termination_by l => l.length
  decreasing_by
    simp only [List.length_cons]
    exact Nat.lt_succ_of_le (takeChunk_snd_length tol rest w)

/-- Within every produced group, successive words are closer than the
tolerance in `top`. -/
lemma groupLines_chain (tol : ℚ) : (l : List Word) →
    ∀ g ∈ groupLines tol l, List.Chain' (fun a b => |b.top - a.top| < tol) g
  | [] => by simp [groupLines]
  | w :: rest => by
    rw [groupLines_cons]
    intro g hg
    rcases List.mem_cons.mp hg with rfl | hg'
    · exact takeChunk_chain tol rest w
    · exact groupLines_chain tol (takeChunk tol w rest).2 g hg'
  termination_by l => l.length
  decreasing_by
    simp only [List.length_cons]
    exact Nat.lt_succ_of_le (takeChunk_snd_length tol rest w)

/-- Between two consecutive produced groups, the `top` distance from
the last word of the first to the first word of the second is at least
the tolerance: a new line starts exactly there. -/
lemma groupLines_boundary (tol : ℚ) : (l : List Word) →
    List.Chain' (fun g h => ∀ a, g.getLast? = some a →
      ∀ b, h.head? = some b → tol ≤ |b.top - a.top|) (groupLines tol l)
  | [] => by simp [groupLines]
  | w :: rest => by
    rw [groupLines_cons]
    rw [List.chain'_cons']
    refine ⟨?_, groupLines_boundary tol (takeChunk tol w rest).2⟩
    intro h hh a ha b hb
    cases hc2 : (takeChunk tol w rest).2 with
    | nil => rw [hc2] at hh; simp [groupLines] at hh
    | cons w' r' =>
      rw [hc2, groupLines_cons] at hh
      simp only [List.head?_cons, Option.mem_def, Option.some.injEq] at hh
      subst hh
      simp only [List.head?_cons, Option.some.injEq] at hb
      refine hb ▸ takeChunk_boundary tol rest w w' a ?_ ha
      rw [hc2]; rfl
  termination_by l => l.length
  decreasing_by
    simp only [List.length_cons]
    exact Nat.lt_succ_of_le (takeChunk_snd_length tol rest w)

/-- Any two consecutive words of the walked list with `top` distance
below the tolerance end up in a common group. -/
lemma clusterLoop_pair (tol : ℚ) : (l : List Word) → ∀ p curRev, p ∈ curRev →
    ∀ n a b, (p :: l)[n]? = some a → (p :: l)[n + 1]? = some b →
      |b.top - a.top| < tol →
    ∃ g ∈ clusterLoop tol p curRev l, a ∈ g ∧ b ∈ g
  | [] => by
    intro p c _ n a b _ hb _
    rcases n with _ | n' <;> simp at hb
  | w :: rest => by
    intro p c hp n a b ha hb hd
    have he : clusterLoop tol p c (w :: rest) =
        if |w.top - p.top| < tol then clusterLoop tol w (w :: c) rest
        else c.reverse :: clusterLoop tol w [w] rest := rfl
    rcases n with _ | n'
    · simp only [List.getElem?_cons_zero, Option.some.injEq] at ha
      simp only [List.getElem?_cons_succ, List.getElem?_cons_zero,
        Option.some.injEq] at hb
      subst ha; subst hb
      rw [he, if_pos hd, clusterLoop_eq]
      refine ⟨_, List.mem_cons_self _ _, ?_, ?_⟩
      · exact List.mem_append_left _
          (List.mem_reverse.mpr (List.mem_cons_of_mem _ hp))
      · exact List.mem_append_left _
          (List.mem_reverse.mpr (List.mem_cons_self _ _))
    · rw [List.getElem?_cons_succ] at ha hb
      by_cases h : |w.top - p.top| < tol
      · rw [he, if_pos h]
        exact clusterLoop_pair tol rest w (w :: c)
          (List.mem_cons_self _ _) n' a b ha hb hd
      · rw [he, if_neg h]
        obtain ⟨g, hg, hag, hbg⟩ := clusterLoop_pair tol rest w [w]
          (List.mem_cons_self _ _) n' a b ha hb hd
        exact ⟨g, List.mem_cons_of_mem _ hg, hag, hbg⟩

/-- Consecutive-pair membership lifted to `groupLines`. -/
lemma groupLines_pair (tol : ℚ) (l : List Word) (n : Nat) (a b : Word)
    (ha : l[n]? = some a) (hb : l[n + 1]? = some b)
    (hd : |b.top - a.top| < tol) :
    ∃ g ∈ groupLines tol l, a ∈ g ∧ b ∈ g := by
  cases l with
  | nil => simp at ha
  | cons w rest =>
    exact clusterLoop_pair tol rest w [w] (List.mem_cons_self _ _) n a b ha hb hd

/-- The sort by `top` really sorts by `top`. -/
lemma sortedByTop_mergeSort (l : List Word) : SortedByTop (l.mergeSort leTop) := by
  have htrans : ∀ (a b c : Word), leTop a b → leTop b c → leTop a c := by
    intro a b c hab hbc
    simp only [leTop, decide_eq_true_eq] at *
    exact le_trans hab hbc
  have htotal : ∀ (a b : Word), leTop a b || leTop b a := by
    intro a b
    simp only [leTop]
    rcases le_total a.top b.top with h | h <;> simp [h]
  exact (List.sorted_mergeSort htrans htotal l).imp
    (fun hab => by simpa [leTop] using hab)

/-- The within-line sort by `x0` really sorts by `x0`. -/
lemma sortedByX0_mergeSort (l : List Word) :
    List.Pairwise (fun a b : Word => a.x0 ≤ b.x0) (l.mergeSort leX0) := by
  have htrans : ∀ (a b c : Word), leX0 a b → leX0 b c → leX0 a c := by
    intro a b c hab hbc
    simp only [leX0, decide_eq_true_eq] at *
    exact le_trans hab hbc
  have htotal : ∀ (a b : Word), leX0 a b || leX0 b a := by
    intro a b
    simp only [leX0]
    rcases le_total a.x0 b.x0 with h | h <;> simp [h]
  exact (List.sorted_mergeSort htrans htotal l).imp
    (fun hab => by simpa [leX0] using hab)

/-- In a `top`-sorted list, every element is below the last one. -/
lemma sorted_top_le_getLast : ∀ {l : List Word}, SortedByTop l →
    ∀ a, l.getLast? = some a → ∀ x ∈ l, x.top ≤ a.top := by
  intro l
  induction l with
  | nil => intro _ a ha; simp at ha
  | cons w l' ih =>
    intro hs a ha x hx
    cases l' with
    | nil =>
      simp only [List.getLast?_singleton, Option.some.injEq] at ha
      simp only [List.mem_singleton] at hx
      subst ha; subst hx; exact le_refl _
    | cons w' l'' =>
      rw [List.getLast?_cons_cons] at ha
      rcases List.mem_cons.mp hx with rfl | hx'
      · have hamem : a ∈ w' :: l'' :=
          List.mem_of_mem_getLast? (Option.mem_def.mpr ha)
        exact List.rel_of_pairwise_cons hs hamem
      · exact ih hs.of_cons a ha x hx'

/-- In a `top`-sorted list, every element is above the head. -/
lemma sorted_head_le_top : ∀ {l : List Word}, SortedByTop l →
    ∀ a, l.head? = some a → ∀ x ∈ l, a.top ≤ x.top := by
  intro l hs a ha x hx
  cases l with
  | nil => simp at ha
  | cons w l' =>
    simp only [List.head?_cons, Option.some.injEq] at ha
    subst ha
    rcases List.mem_cons.mp hx with rfl | hx'
    · exact le_refl _
    · exact List.rel_of_pairwise_cons hs hx'

/-- On a sorted list, the first chunk sits strictly below the
remainder: everything in the chunk is at most the chunk's last `top`,
everything in the remainder strictly above it. -/
lemma chunk_sep (tol : ℚ) (hpos : 0 < tol) (w : Word) (rest : List Word)
    (hs : SortedByTop (w :: rest)) (a : Word)
    (ha : (w :: (takeChunk tol w rest).1).getLast? = some a) :
    (∀ x ∈ w :: (takeChunk tol w rest).1, x.top ≤ a.top) ∧
    (∀ x ∈ (takeChunk tol w rest).2, a.top < x.top) := by
  have hsplit : w :: rest =
      (w :: (takeChunk tol w rest).1) ++ (takeChunk tol w rest).2 := by
    simp [takeChunk_append]
  have hs' := hs
  rw [hsplit] at hs'
  obtain ⟨hsL, hsR, hcross⟩ := List.pairwise_append.mp hs'
  refine ⟨sorted_top_le_getLast hsL a ha, ?_⟩
  intro x hx
  cases hr : (takeChunk tol w rest).2 with
  | nil => rw [hr] at hx; simp at hx
  | cons b r' =>
    have hamem : a ∈ w :: (takeChunk tol w rest).1 :=
      List.mem_of_mem_getLast? (Option.mem_def.mpr ha)
    have hab : a.top ≤ b.top := by
      refine hcross a hamem b ?_
      rw [hr]; exact List.mem_cons_self _ _
    have hbd : tol ≤ |b.top - a.top| :=
      takeChunk_boundary tol rest w b a (by rw [hr]; rfl) ha
    rw [abs_of_nonneg (by linarith)] at hbd
    have hblt : a.top < b.top := by linarith
    rw [hr] at hx
    have hsR' : SortedByTop (b :: r') := by rw [← hr]; exact hsR
    rcases List.mem_cons.mp hx with rfl | hx'
    · exact hblt
    · have : b.top ≤ x.top := List.rel_of_pairwise_cons hsR' hx'
      linarith

/-- On a sorted list, the first chunk and its remainder are the filters
of the list at the threshold given by the chunk's last `top`. -/
lemma takeChunk_eq_filter (tol : ℚ) (hpos : 0 < tol) (w : Word)
    (rest : List Word) (hs : SortedByTop (w :: rest)) (a : Word)
    (ha : (w :: (takeChunk tol w rest).1).getLast? = some a) :
    w :: (takeChunk tol w rest).1 =
      (w :: rest).filter (fun x => decide (x.top ≤ a.top)) ∧
    (takeChunk tol w rest).2 =
      (w :: rest).filter (fun x => decide (a.top < x.top)) := by
  obtain ⟨h1, h2⟩ := chunk_sep tol hpos w rest hs a ha
  have hsplit : w :: rest =
      (w :: (takeChunk tol w rest).1) ++ (takeChunk tol w rest).2 := by
    simp [takeChunk_append]
  constructor
  · conv_rhs => rw [hsplit]
    rw [List.filter_append,
      List.filter_eq_self.mpr (fun x hx => by simpa using h1 x hx),
      List.filter_eq_nil_iff.mpr
        (fun x hx => by simpa using not_le.mpr (h2 x hx))]
    simp
  · conv_rhs => rw [hsplit]
    rw [List.filter_append,
      List.filter_eq_nil_iff.mpr
        (fun x hx => by simpa using not_lt.mpr (h1 x hx)),
      List.filter_eq_self.mpr (fun x hx => by simpa using h2 x hx)]
    simp

/-- The chunk split depends only on the sequence of `top` values. -/
lemma takeChunk_map_top (tol : ℚ) : (l₁ : List Word) →
    ∀ (l₂ : List Word) (p₁ p₂ : Word), p₁.top = p₂.top →
      l₁.map Word.top = l₂.map Word.top →
    (takeChunk tol p₁ l₁).1.map Word.top =
      (takeChunk tol p₂ l₂).1.map Word.top ∧
    (takeChunk tol p₁ l₁).2.map Word.top =
      (takeChunk tol p₂ l₂).2.map Word.top
  | [] => by
    intro l₂ p₁ p₂ _ hm
    cases l₂ with
    | nil => simp [takeChunk]
    | cons w₂ r₂ => simp at hm
  | w₁ :: r₁ => by
    intro l₂ p₁ p₂ hp hm
    cases l₂ with
    | nil => simp at hm
    | cons w₂ r₂ =>
      simp only [List.map_cons, List.cons.injEq] at hm
      obtain ⟨hw, hr⟩ := hm
      by_cases h : |w₁.top - p₁.top| < tol
      · have h₂ : |w₂.top - p₂.top| < tol := by rw [← hw, ← hp]; exact h
        obtain ⟨ih1, ih2⟩ := takeChunk_map_top tol r₁ r₂ w₁ w₂ hw hr
        have e₁ : takeChunk tol p₁ (w₁ :: r₁) =
            (w₁ :: (takeChunk tol w₁ r₁).1, (takeChunk tol w₁ r₁).2) := by
          simp only [takeChunk, if_pos h]
        have e₂ : takeChunk tol p₂ (w₂ :: r₂) =
            (w₂ :: (takeChunk tol w₂ r₂).1, (takeChunk tol w₂ r₂).2) := by
          simp only [takeChunk, if_pos h₂]
        rw [e₁, e₂]
        exact ⟨by simp only [List.map_cons, ih1, hw], ih2⟩
      · have h₂ : ¬ |w₂.top - p₂.top| < tol := by rw [← hw, ← hp]; exact h
        have e₁ : takeChunk tol p₁ (w₁ :: r₁) = ([], w₁ :: r₁) := by
          simp only [takeChunk, if_neg h]
        have e₂ : takeChunk tol p₂ (w₂ :: r₂) = ([], w₂ :: r₂) := by
          simp only [takeChunk, if_neg h₂]
        rw [e₁, e₂]
        exact ⟨rfl, by simp [hw, hr]⟩

/-- Key invariance lemma: two sorted permutations of the same words
produce pointwise-permuted groups. -/
lemma groupLines_perm_of_perm (tol : ℚ) (hpos : 0 < tol) :
    (s₁ : List Word) → ∀ (s₂ : List Word),
    SortedByTop s₁ → SortedByTop s₂ → s₁.Perm s₂ →
    List.Forall₂ List.Perm (groupLines tol s₁) (groupLines tol s₂)
  | [] => by
    intro s₂ _ _ hp
    rw [List.Perm.eq_nil hp.symm]
    simp [groupLines]
  | w₁ :: r₁ => by
    intro s₂ hs₁ hs₂ hp
    cases s₂ with
    | nil => simp at hp
    | cons w₂ r₂ =>
      have hsorted₁ : List.Sorted (· ≤ ·) ((w₁ :: r₁).map Word.top) :=
        List.Pairwise.map Word.top (fun a b h => h) hs₁
      have hsorted₂ : List.Sorted (· ≤ ·) ((w₂ :: r₂).map Word.top) :=
        List.Pairwise.map Word.top (fun a b h => h) hs₂
      have hmap : (w₁ :: r₁).map Word.top = (w₂ :: r₂).map Word.top :=
        List.eq_of_perm_of_sorted (hp.map Word.top) hsorted₁ hsorted₂
      have hmap' := hmap
      simp only [List.map_cons, List.cons.injEq] at hmap'
      obtain ⟨hw, hr⟩ := hmap'
      rw [groupLines_cons, groupLines_cons]
      obtain ⟨hc1, hc2⟩ := takeChunk_map_top tol r₁ r₂ w₁ w₂ hw hr
      obtain ⟨a₁, ha₁⟩ : ∃ x, (w₁ :: (takeChunk tol w₁ r₁).1).getLast? = some x :=
        ⟨_, List.getLast?_eq_getLast _ (by simp)⟩
      obtain ⟨a₂, ha₂⟩ : ∃ x, (w₂ :: (takeChunk tol w₂ r₂).1).getLast? = some x :=
        ⟨_, List.getLast?_eq_getLast _ (by simp)⟩
      have hatop : a₁.top = a₂.top := by
        have hm : (w₁ :: (takeChunk tol w₁ r₁).1).map Word.top =
            (w₂ :: (takeChunk tol w₂ r₂).1).map Word.top := by
          simp [hw, hc1]
        have hLast := congrArg List.getLast? hm
        rw [List.getLast?_map, List.getLast?_map, ha₁, ha₂] at hLast
        simpa using hLast
      obtain ⟨hf₁L, hf₁R⟩ := takeChunk_eq_filter tol hpos w₁ r₁ hs₁ a₁ ha₁
      obtain ⟨hf₂L, hf₂R⟩ := takeChunk_eq_filter tol hpos w₂ r₂ hs₂ a₂ ha₂
      rw [← hatop] at hf₂L hf₂R
      have hperm1 : (w₁ :: (takeChunk tol w₁ r₁).1).Perm
          (w₂ :: (takeChunk tol w₂ r₂).1) := by
        rw [hf₁L, hf₂L]; exact hp.filter _
      have hperm2 : (takeChunk tol w₁ r₁).2.Perm (takeChunk tol w₂ r₂).2 := by
        rw [hf₁R, hf₂R]; exact hp.filter _
      have hs₁' : SortedByTop (takeChunk tol w₁ r₁).2 := by
        rw [hf₁R]; exact List.Pairwise.sublist (List.filter_sublist _) hs₁
      have hs₂' : SortedByTop (takeChunk tol w₂ r₂).2 := by
        rw [hf₂R]; exact List.Pairwise.sublist (List.filter_sublist _) hs₂
      exact List.Forall₂.cons hperm1
        (groupLines_perm_of_perm tol hpos (takeChunk tol w₁ r₁).2
          (takeChunk tol w₂ r₂).2 hs₁' hs₂' hperm2)
  termination_by s₁ => s₁.length
  decreasing_by
    simp only [List.length_cons]
    exact Nat.lt_succ_of_le (takeChunk_snd_length _ _ _)

/-- Words with equal `top` always land in a common group. -/
lemma groupLines_same_top (tol : ℚ) (hpos : 0 < tol) :
    (s : List Word) → SortedByTop s →
    ∀ u v, u ∈ s → v ∈ s → u.top = v.top →
    ∃ g ∈ groupLines tol s, u ∈ g ∧ v ∈ g
  | [] => by intro _ u v hu; simp at hu
  | w :: rest => by
    intro hs u v hu hv htop
    rw [groupLines_cons]
    obtain ⟨a, ha⟩ : ∃ x, (w :: (takeChunk tol w rest).1).getLast? = some x :=
      ⟨_, List.getLast?_eq_getLast _ (by simp)⟩
    obtain ⟨hle, hgt⟩ := chunk_sep tol hpos w rest hs a ha
    have hsplit : w :: rest =
        (w :: (takeChunk tol w rest).1) ++ (takeChunk tol w rest).2 := by
      simp [takeChunk_append]
    have hs' := hs
    rw [hsplit] at hs' hu hv
    rcases List.mem_append.mp hu with huL | huR <;>
      rcases List.mem_append.mp hv with hvL | hvR
    · exact ⟨_, List.mem_cons_self _ _, huL, hvL⟩
    · exact absurd htop (by have := hle u huL; have := hgt v hvR; intro he; linarith)
    · exact absurd htop (by have := hle v hvL; have := hgt u huR; intro he; linarith)
    · obtain ⟨g, hg, hug, hvg⟩ := groupLines_same_top tol hpos
        (takeChunk tol w rest).2
        (List.pairwise_append.mp hs').2.1 u v huR hvR htop
      exact ⟨g, List.mem_cons_of_mem _ hg, hug, hvg⟩
  termination_by s => s.length
  decreasing_by
    simp only [List.length_cons]
    exact Nat.lt_succ_of_le (takeChunk_snd_length tol rest w)

/-- `foldQ min` is a lower bound for its seed and all selected values. -/
lemma foldQ_min_le (sel : Word → ℚ) : ∀ (ws : List Word) (init : ℚ),
    foldQ min sel ws init ≤ init ∧ ∀ w ∈ ws, foldQ min sel ws init ≤ sel w := by
  intro ws
  induction ws with
  | nil => intro init; simp [foldQ]
  | cons w ws ih =>
    intro init
    have hstep : foldQ min sel (w :: ws) init = foldQ min sel ws (min init (sel w)) := rfl
    constructor
    · rw [hstep]; exact le_trans (ih _).1 (min_le_left _ _)
    · intro w' hw'
      rcases List.mem_cons.mp hw' with rfl | hw''
      · rw [hstep]; exact le_trans (ih _).1 (min_le_right _ _)
      · rw [hstep]; exact (ih _).2 w' hw''

/-- `foldQ min` attains its seed or some selected value. -/
lemma foldQ_min_mem (sel : Word → ℚ) : ∀ (ws : List Word) (init : ℚ),
    foldQ min sel ws init = init ∨ ∃ w ∈ ws, foldQ min sel ws init = sel w := by
  intro ws
  induction ws with
  | nil => intro init; left; rfl
  | cons w ws ih =>
    intro init
    have hstep : foldQ min sel (w :: ws) init = foldQ min sel ws (min init (sel w)) := rfl
    rcases ih (min init (sel w)) with h | ⟨w', hw', h⟩
    · rcases min_choice init (sel w) with hm | hm
      · left; rw [hstep, h, hm]
      · right; exact ⟨w, List.mem_cons_self _ _, by rw [hstep, h, hm]⟩
    · right; exact ⟨w', List.mem_cons_of_mem _ hw', by rw [hstep]; exact h⟩

/-- `foldQ max` is an upper bound for its seed and all selected values. -/
lemma foldQ_max_ge (sel : Word → ℚ) : ∀ (ws : List Word) (init : ℚ),
    init ≤ foldQ max sel ws init ∧ ∀ w ∈ ws, sel w ≤ foldQ max sel ws init := by
  intro ws
  induction ws with
  | nil => intro init; simp [foldQ]
  | cons w ws ih =>
    intro init
    have hstep : foldQ max sel (w :: ws) init = foldQ max sel ws (max init (sel w)) := rfl
    constructor
    · rw [hstep]; exact le_trans (le_max_left _ _) (ih _).1
    · intro w' hw'
      rcases List.mem_cons.mp hw' with rfl | hw''
      · rw [hstep]; exact le_trans (le_max_right _ _) (ih _).1
      · rw [hstep]; exact (ih _).2 w' hw''

/-- `foldQ max` attains its seed or some selected value. -/
lemma foldQ_max_mem (sel : Word → ℚ) : ∀ (ws : List Word) (init : ℚ),
    foldQ max sel ws init = init ∨ ∃ w ∈ ws, foldQ max sel ws init = sel w := by
  intro ws
  induction ws with
  | nil => intro init; left; rfl
  | cons w ws ih =>
    intro init
    have hstep : foldQ max sel (w :: ws) init = foldQ max sel ws (max init (sel w)) := rfl
    rcases ih (max init (sel w)) with h | ⟨w', hw', h⟩
    · rcases max_choice init (sel w) with hm | hm
      · left; rw [hstep, h, hm]
      · right; exact ⟨w, List.mem_cons_self _ _, by rw [hstep, h, hm]⟩
    · right; exact ⟨w', List.mem_cons_of_mem _ hw', by rw [hstep]; exact h⟩

/-- The emitted line of any group: `x0`-sorted word order and joined
text. -/
lemma lineOf_sorted_text (g : List Word) :
    List.Pairwise (fun a b : Word => a.x0 ≤ b.x0) (g.mergeSort leX0) ∧
    (g.mergeSort leX0).Perm g ∧
    (lineOf g).text = String.intercalate " " ((g.mergeSort leX0).map Word.text) := by
  refine ⟨sortedByX0_mergeSort g, List.mergeSort_perm g leX0, ?_⟩
  cases g with
  | nil =>
    show "" = String.intercalate " " (List.map Word.text ([].mergeSort leX0))
    rw [List.mergeSort_nil]
    rfl
  | cons w ws => rfl

/-- The emitted line of a nonempty group: its bbox bounds all member
bboxes and each bbox side is attained by some member. -/
lemma lineOf_envelope (w : Word) (ws : List Word) :
    (∀ x ∈ w :: ws, (lineOf (w :: ws)).x0 ≤ x.x0 ∧ (lineOf (w :: ws)).top ≤ x.top ∧
      x.x1 ≤ (lineOf (w :: ws)).x1 ∧ x.bottom ≤ (lineOf (w :: ws)).bottom) ∧
    ((∃ x ∈ w :: ws, (lineOf (w :: ws)).x0 = x.x0) ∧
     (∃ x ∈ w :: ws, (lineOf (w :: ws)).top = x.top) ∧
     (∃ x ∈ w :: ws, (lineOf (w :: ws)).x1 = x.x1) ∧
     (∃ x ∈ w :: ws, (lineOf (w :: ws)).bottom = x.bottom)) := by
  have hx0 : (lineOf (w :: ws)).x0 = foldQ min Word.x0 ws w.x0 := rfl
  have htop : (lineOf (w :: ws)).top = foldQ min Word.top ws w.top := rfl
  have hx1 : (lineOf (w :: ws)).x1 = foldQ max Word.x1 ws w.x1 := rfl
  have hbot : (lineOf (w :: ws)).bottom = foldQ max Word.bottom ws w.bottom := rfl
  constructor
  · intro x hx
    rcases List.mem_cons.mp hx with rfl | hx'
    · exact ⟨hx0 ▸ (foldQ_min_le _ ws _).1, htop ▸ (foldQ_min_le _ ws _).1,
        hx1 ▸ (foldQ_max_ge _ ws _).1, hbot ▸ (foldQ_max_ge _ ws _).1⟩
    · exact ⟨hx0 ▸ (foldQ_min_le _ ws _).2 x hx', htop ▸ (foldQ_min_le _ ws _).2 x hx',
        hx1 ▸ (foldQ_max_ge _ ws _).2 x hx', hbot ▸ (foldQ_max_ge _ ws _).2 x hx'⟩
  · refine ⟨?_, ?_, ?_, ?_⟩
    · rcases foldQ_min_mem Word.x0 ws w.x0 with h | ⟨x, hx, h⟩
      · exact ⟨w, List.mem_cons_self _ _, hx0 ▸ h⟩
      · exact ⟨x, List.mem_cons_of_mem _ hx, hx0 ▸ h⟩
    · rcases foldQ_min_mem Word.top ws w.top with h | ⟨x, hx, h⟩
      · exact ⟨w, List.mem_cons_self _ _, htop ▸ h⟩
      · exact ⟨x, List.mem_cons_of_mem _ hx, htop ▸ h⟩
    · rcases foldQ_max_mem Word.x1 ws w.x1 with h | ⟨x, hx, h⟩
      · exact ⟨w, List.mem_cons_self _ _, hx1 ▸ h⟩
      · exact ⟨x, List.mem_cons_of_mem _ hx, hx1 ▸ h⟩
    · rcases foldQ_max_mem Word.bottom ws w.bottom with h | ⟨x, hx, h⟩
      · exact ⟨w, List.mem_cons_self _ _, hbot ▸ h⟩
      · exact ⟨x, List.mem_cons_of_mem _ hx, hbot ▸ h⟩

/-! ### Slide emission lemmas -/

/-- When every span's `add_run` succeeds, run emission succeeds and
yields exactly the surviving (non-skipped) runs. -/
lemma emitRuns_ok (spans : List Span) (h : ∀ s ∈ spans, s.addRunOk = true) :
    emitRuns spans = Except.ok (spans.filterMap survivingRun) := by
  induction spans with
  | nil => rfl
  | cons s rest ih =>
    have hs := h s (List.mem_cons_self _ _)
    have hrest := ih (fun s' hs' => h s' (List.mem_cons_of_mem _ hs'))
    by_cases hskip : strips_to_empty s.text ∧ s.text ≠ " "
    · simp [emitRuns, emitSpan, hskip, hrest, List.filterMap_cons, survivingRun]
    · simp [emitRuns, emitSpan, hskip, hs, hrest, List.filterMap_cons, survivingRun]

/-- When every span's `add_run` succeeds, each line becomes a textbox
with its surviving runs. -/
lemma emitTextLines_ok (lines : List SlideLine)
    (h : ∀ l ∈ lines, ∀ s ∈ l.spans, s.addRunOk = true) :
    emitTextLines lines = Except.ok
      (lines.map (fun l => Shape.textbox l.bbox (l.spans.filterMap survivingRun))) := by
  induction lines with
  | nil => rfl
  | cons l rest ih =>
    have hl := h l (List.mem_cons_self _ _)
    have hrest := ih (fun l' hl' => h l' (List.mem_cons_of_mem _ hl'))
    simp [emitTextLines, emitRuns_ok l.spans hl, hrest]

/-- When every text run succeeds, block emission succeeds, skipping
exactly the failing pictures. -/
lemma emitBlocks_ok (blocks : List Block) (h : ∀ b ∈ blocks, blockRunsOk b) :
    emitBlocks blocks = Except.ok (survivingPage blocks) := by
  induction blocks with
  | nil => rfl
  | cons b rest ih =>
    have hrest := ih (fun b' hb' => h b' (List.mem_cons_of_mem _ hb'))
    cases b with
    | imageBlock bbox pOk =>
      cases pOk <;>
        simp [emitBlocks, hrest, survivingPage, survivingShapes]
    | textBlock lines =>
      have hl : ∀ l ∈ lines, ∀ s ∈ l.spans, s.addRunOk = true :=
        h _ (List.mem_cons_self _ _)
      simp [emitBlocks, emitTextLines_ok lines hl, hrest, survivingPage,
        survivingShapes]

/-! ## Claim theorems -/

/-- C5: a text run is classified as belonging to a table iff the
midpoint of its bbox falls within some table bbox, and the free-text
words passed on to line clustering are exactly the words failing this
midpoint test. -/
theorem midpoint_containment_classification
    (wb : BBox) (tbs : List BBox) (words : List Word) (w : Word) :
    (is_inside_table wb tbs = true ↔ ∃ t ∈ tbs, midpointWithin t wb) ∧
    (w ∈ non_table_words words tbs ↔
      w ∈ words ∧ ¬ ∃ t ∈ tbs, midpointWithin t w.bbox) := by
  constructor
  · simp [is_inside_table, midpointWithin, List.any_eq_true]
  · simp [non_table_words, List.mem_filter, is_inside_table, midpointWithin,
      List.any_eq_true]

/-- C6: an upload larger than `MAX_FILE_SIZE` is rejected by every
conversion endpoint with HTTP 400, before any scratch directory is
created and before the upload's contents are copied anywhere. -/
theorem oversize_upload_rejected (u : Upload) (h : MAX_FILE_SIZE < u.size) :
    convert_pdf_to_docx_entry u = ⟨some 400, false, false⟩ ∧
    convert_pdf_to_excel_entry u = ⟨some 400, false, false⟩ ∧
    convert_pdf_to_ppt_entry u = ⟨some 400, false, false⟩ ∧
    convert_pdf_to_image_entry u = ⟨some 400, false, false⟩ := by
  have hg : endpoint_guard u = ⟨some 400, false, false⟩ := by
    unfold endpoint_guard validate_file
    by_cases hp : lower_endswith_pdf u.filename <;> simp [hp, h]
  exact ⟨hg, hg, hg, hg⟩

/-- Witness for C6 at a concrete oversized pdf upload. -/
theorem oversize_upload_rejected_witness :
    convert_pdf_to_docx_entry ⟨"a.pdf", MAX_FILE_SIZE + 1⟩ = ⟨some 400, false, false⟩ ∧
    convert_pdf_to_excel_entry ⟨"a.pdf", MAX_FILE_SIZE + 1⟩ = ⟨some 400, false, false⟩ ∧
    convert_pdf_to_ppt_entry ⟨"a.pdf", MAX_FILE_SIZE + 1⟩ = ⟨some 400, false, false⟩ ∧
    convert_pdf_to_image_entry ⟨"a.pdf", MAX_FILE_SIZE + 1⟩ = ⟨some 400, false, false⟩ :=
  oversize_upload_rejected ⟨"a.pdf", MAX_FILE_SIZE + 1⟩ (Nat.lt_succ_self _)

/-- C9: an upload whose filename does not end in ".pdf"
(case-insensitively) is rejected by every conversion endpoint with
HTTP 400, before the contents are read and before any scratch storage
is created. -/
theorem non_pdf_extension_rejected (u : Upload)
    (h : lower_endswith_pdf u.filename = false) :
    convert_pdf_to_docx_entry u = ⟨some 400, false, false⟩ ∧
    convert_pdf_to_excel_entry u = ⟨some 400, false, false⟩ ∧
    convert_pdf_to_ppt_entry u = ⟨some 400, false, false⟩ ∧
    convert_pdf_to_image_entry u = ⟨some 400, false, false⟩ := by
  have hg : endpoint_guard u = ⟨some 400, false, false⟩ := by
    unfold endpoint_guard validate_file
    simp [h]
  exact ⟨hg, hg, hg, hg⟩

/-- Witness for C9 at the concrete filename "doc.txt". -/
theorem non_pdf_extension_rejected_witness :
    convert_pdf_to_docx_entry ⟨"doc.txt", 10⟩ = ⟨some 400, false, false⟩ ∧
    convert_pdf_to_excel_entry ⟨"doc.txt", 10⟩ = ⟨some 400, false, false⟩ ∧
    convert_pdf_to_ppt_entry ⟨"doc.txt", 10⟩ = ⟨some 400, false, false⟩ ∧
    convert_pdf_to_image_entry ⟨"doc.txt", 10⟩ = ⟨some 400, false, false⟩ :=
  non_pdf_extension_rejected ⟨"doc.txt", 10⟩ (by decide)

/-- C8: for a document with at least one page, the slide canvas is set
from the FIRST page at exactly 12700 EMUs per point: whenever
`w * 12700` and `h * 12700` are the integers `mW` and `mH`, the stored
canvas is exactly `(mW, mH)`. -/
theorem slide_canvas_from_first_page
    (w h : ℚ) (rest : List (ℚ × ℚ)) (mW mH : ℤ)
    (hw : w * 12700 = (mW : ℚ)) (hh : h * 12700 = (mH : ℚ)) :
    slideSizeEMU ((w, h) :: rest) = some (mW, mH) := by
  have e1 : (w / 72) * 914400 = w * 12700 := by ring
  have e2 : (h / 72) * 914400 = h * 12700 := by ring
  have p1 : pyInt ((w / 72) * 914400) = mW := by
    rw [e1, hw]; unfold pyInt
    split <;> simp
  have p2 : pyInt ((h / 72) * 914400) = mH := by
    rw [e2, hh]; unfold pyInt
    split <;> simp
  simp [slideSizeEMU, p1, p2]

/-- Witness for C8 at a concrete US-Letter first page (612 × 792 pt). -/
theorem slide_canvas_from_first_page_witness :
    slideSizeEMU ((612, 792) :: [(100, 100)]) = some (7772400, 10058400) :=
  slide_canvas_from_first_page 612 792 [(100, 100)] 7772400 10058400
    (by norm_num) (by norm_num)

/-- C1 counterexample: on a one-page document the image target still
returns a zip archive (with the single entry "page_1.png"), not the
single image file, and on a two-page document the entry names are not
zero-padded. -/
theorem image_target_counterexample :
    convert_pdf_to_image 1 "png" = ImageResult.zipArchive ["page_1.png"] ∧
    convert_pdf_to_image 1 "png" ≠ ImageResult.singleFile "page_1.png" ∧
    convert_pdf_to_image 2 "png" ≠
      ImageResult.zipArchive ["page_001.png", "page_002.png"] := by
  refine ⟨rfl, by decide, by decide⟩

/-- C1 amended: for every N-page document the image target produces
exactly N page images, always packaged into a single zip archive
(also when N = 1) whose entries are deterministically and sequentially
named `page_1.ext`, `page_2.ext`, … without zero padding. -/
theorem image_target_zip_entries (n : Nat) (fmt : String) :
    convert_pdf_to_image n fmt =
      ImageResult.zipArchive
        ((List.range n).map (fun i => "page_" ++ toString (i + 1) ++ "." ++ fmt)) ∧
    ((List.range n).map (fun i => pageImageName i fmt)).length = n := by
  constructor
  · rfl
  · simp

/-- C2: a centered text element's cell is merged across exactly the
column count of the next table element found by scanning forward
through the remaining elements of the page, when that count exceeds 1;
with no following table, or a single-column one, no merge occurs
(`mergeHintSpec` restates the claim's scan verbatim); the rest of the
page is emitted unchanged after it. -/
theorem centered_text_merge (pw tp x0 x1 : ℚ) (s : String) (rest : List PElem)
    (hc : isCentered pw x0 x1 = true) :
    emitElements pw (PElem.text tp x0 x1 s :: rest) =
      (emitElements pw rest).map
        (fun rows => RowOut.textRow ⟨s, Align.center, mergeHintSpec rest⟩ :: rows) := by
  have hcell : textCellOf pw x0 x1 s rest =
      RowOut.textRow ⟨s, Align.center, mergeHintSpec rest⟩ := by
    rw [textCellOf, ← mergeHint_code_eq_spec rest]
    simp [hc]
  show (match emitElements pw rest with
    | Except.error e => Except.error e
    | Except.ok rows => Except.ok (textCellOf pw x0 x1 s rest :: rows)) = _
  rw [hcell]
  cases emitElements pw rest <;> rfl

/-- Witness for C2: a centered title on a 100-wide page followed by a
4-column table is merged across exactly 4 columns. -/
theorem centered_text_merge_witness :
    emitElements 100 (PElem.text 10 40 60 "Judul" ::
        [PElem.table 50 4 (TableExtract.extracted [[some "a", some "b", some "c", some "d"]])]) =
      (emitElements 100
          [PElem.table 50 4 (TableExtract.extracted [[some "a", some "b", some "c", some "d"]])]).map
        (fun rows => RowOut.textRow ⟨"Judul", Align.center,
          mergeHintSpec
            [PElem.table 50 4 (TableExtract.extracted [[some "a", some "b", some "c", some "d"]])]⟩ ::
          rows) :=
  centered_text_merge 100 10 40 60 "Judul"
    [PElem.table 50 4 (TableExtract.extracted [[some "a", some "b", some "c", some "d"]])]
    (by simp only [isCentered, decide_eq_true_eq]; norm_num)

/-- C10 counterexample: a centered title followed by a table whose
`extract()` raises does get `cols = 1` at build time — but the
conversion does NOT continue without error: the unguarded
emission-time re-extraction at src/main.py line 214 raises again and
the whole request aborts, so no output is produced at all. -/
theorem failed_extraction_abort_counterexample :
    col_count TableExtract.extractFailed = 1 ∧
    emitElements 100
      [PElem.text 10 40 60 "Judul",
       PElem.table 50 (col_count TableExtract.extractFailed) TableExtract.extractFailed] =
      Except.error "table extract raised" :=
  ⟨rfl, rfl⟩

/-- C10 amended: a table whose cell extraction raises or yields no
rows gets column count 1 at build time, so a centered text line whose
forward scan reaches only such single-column tables is never merged;
a table whose extraction yielded no rows is skipped at emission and
the conversion continues, whereas a table whose extraction raises
makes the unguarded emission-time re-extraction raise again, aborting
the whole request with an error. -/
theorem failed_extraction_no_merge (pw tp x0 x1 : ℚ) (s : String)
    (rest : List PElem)
    (hall : ∀ t c d, PElem.table t c d ∈ rest → c = 1)
    (hc : isCentered pw x0 x1 = true) :
    col_count TableExtract.extractFailed = 1 ∧
    col_count (TableExtract.extracted []) = 1 ∧
    emitElements pw (PElem.text tp x0 x1 s :: rest) =
      (emitElements pw rest).map
        (fun rows => RowOut.textRow ⟨s, Align.center, none⟩ :: rows) ∧
    (∀ tp' c, emitElements pw (PElem.table tp' c (TableExtract.extracted []) :: rest) =
      emitElements pw rest) ∧
    (∀ tp' c, emitElements pw (PElem.table tp' c TableExtract.extractFailed :: rest) =
      Except.error "table extract raised") := by
  refine ⟨rfl, rfl, ?_, ?_, fun tp' c => rfl⟩
  · have hcols : (firstTableCols rest).getD 1 = 1 := by
      cases hfc : firstTableCols rest with
      | none => rfl
      | some c => simpa using firstTableCols_all_one hall c hfc
    have hcell : textCellOf pw x0 x1 s rest =
        RowOut.textRow ⟨s, Align.center, none⟩ := by
      rw [textCellOf]
      simp [hc, hcols]
    show (match emitElements pw rest with
      | Except.error e => Except.error e
      | Except.ok rows => Except.ok (textCellOf pw x0 x1 s rest :: rows)) = _
    rw [hcell]
    cases emitElements pw rest <;> rfl
  · intro tp' c
    show (match emitElements pw rest with
      | Except.error e => Except.error e
      | Except.ok rows =>
        if ([] : List (List (Option String))) = [] then Except.ok rows
        else Except.ok (RowOut.tableBlock (List.map clean_row []) :: rows)) = _
    cases emitElements pw rest <;> rfl

/-- C4 counterexample: a document whose only page has one good text
line followed by a line with a span whose `add_run` fails is NOT
converted with the failing primitive skipped — the unguarded text-run
failure propagates and the whole-document conversion aborts with an
error, producing no output (the endpoint answers HTTP 500). -/
theorem slide_text_run_failure_aborts :
    convert_pdf_to_ppt_slides
      [[Block.textBlock [⟨⟨0, 0, 10, 1⟩, [⟨"ok", 12, 0, 0, true, true⟩]⟩,
                         ⟨⟨0, 2, 10, 3⟩, [⟨"x", 12, 0, 0, true, false⟩]⟩]]] =
      Except.error "add_run failed" := by
  rfl

/-- C4 amended: a failure adding one image (`add_picture`) is caught
and only that picture is skipped, and a failure reading a span's
colour is caught with the colour defaulting to black; under the
proviso that no `add_run` call fails, the whole-document conversion
succeeds and every page's output contains exactly its surviving
elements.  (A failing `add_run`, by contrast, aborts the conversion —
see the counterexample.) -/
theorem slide_emission_failure_semantics (pages : List (List Block))
    (hok : ∀ p ∈ pages, ∀ b ∈ p, blockRunsOk b) :
    convert_pdf_to_ppt_slides pages = Except.ok (pages.map survivingPage) := by
  induction pages with
  | nil => rfl
  | cons p rest ih =>
    have hp := hok p (List.mem_cons_self _ _)
    have hrest := ih (fun p' hp' => hok p' (List.mem_cons_of_mem _ hp'))
    simp [convert_pdf_to_ppt_slides, emitBlocks_ok p hp, hrest]

/-- Witness for C4 (amended): a page with a failing embedded image and
one good text line still converts, the picture silently skipped and
the page's surviving text element kept. -/
theorem slide_emission_failure_semantics_witness :
    convert_pdf_to_ppt_slides
      [[Block.imageBlock ⟨0, 0, 1, 1⟩ false,
        Block.textBlock [⟨⟨0, 2, 3, 4⟩, [⟨"hi", 10, 255, 18, true, true⟩]⟩]]] =
      Except.ok
        ([[Block.imageBlock ⟨0, 0, 1, 1⟩ false,
           Block.textBlock [⟨⟨0, 2, 3, 4⟩, [⟨"hi", 10, 255, 18, true, true⟩]⟩]]].map
          survivingPage) :=
  slide_emission_failure_semantics _ (by
    intro p hp b hb
    simp only [List.mem_singleton] at hp
    subst hp
    rcases List.mem_cons.mp hb with rfl | hb'
    · trivial
    · simp only [List.mem_singleton] at hb'
      subst hb'
      intro l hl s hs
      simp only [List.mem_singleton] at hl
      subst hl
      simp only [List.mem_singleton] at hs
      subst hs
      rfl)

/-- C3 counterexample: with the default tolerance 3, two consecutive
top-sorted words whose tops differ by exactly the tolerance (0 and 3,
difference `≤ 3`) do NOT land in the same line: the clustering emits
two separate lines, because the code's same-line test is the strict
`abs(...) < tolerance`. -/
theorem line_clustering_tolerance_counterexample :
    |(⟨"b", 0, 3, 1, 4⟩ : Word).top - (⟨"a", 0, 0, 1, 1⟩ : Word).top| ≤ 3 ∧
    cluster_words_into_lines [⟨"a", 0, 0, 1, 1⟩, ⟨"b", 0, 3, 1, 4⟩] 3 =
      [⟨"a", 0, 0, 1, 1⟩, ⟨"b", 0, 3, 1, 4⟩] := by
  constructor
  · norm_num
  · norm_num [cluster_words_into_lines, List.mergeSort, leTop, leX0, groupLines,
      clusterLoop, takeChunk, lineOf, foldQ, String.intercalate,
      List.splitInTwo, List.merge]
    exact ⟨rfl, rfl⟩

/-- C3 amended: for every list of words, clustering sorts the words by
`top` and walks them in order, starting a new line exactly when the
current word's top differs from the previous word's top by AT LEAST
the tolerance (the code's same-line test is the strict
`abs(diff) < tolerance`, so a difference equal to the tolerance starts
a new line); two consecutive top-sorted words whose tops differ by
strictly less than the tolerance land in the same line; within each
produced line, words are sorted by `x0` and their texts joined with a
single space, and the line's bbox is the min/max envelope of its
words' bboxes. -/
theorem cluster_words_into_lines_spec (words : List Word) (tol : ℚ) :
    (words.mergeSort leTop).Perm words ∧
    SortedByTop (words.mergeSort leTop) ∧
    cluster_words_into_lines words tol =
      (groupLines tol (words.mergeSort leTop)).map lineOf ∧
    (groupLines tol (words.mergeSort leTop)).flatten = words.mergeSort leTop ∧
    (∀ g ∈ groupLines tol (words.mergeSort leTop),
      g ≠ [] ∧ List.Chain' (fun a b => |b.top - a.top| < tol) g) ∧
    List.Chain' (fun g h => ∀ a, g.getLast? = some a →
        ∀ b, h.head? = some b → tol ≤ |b.top - a.top|)
      (groupLines tol (words.mergeSort leTop)) ∧
    (∀ n a b, (words.mergeSort leTop)[n]? = some a →
      (words.mergeSort leTop)[n + 1]? = some b → |b.top - a.top| < tol →
      ∃ g ∈ groupLines tol (words.mergeSort leTop), a ∈ g ∧ b ∈ g) ∧
    (∀ g ∈ groupLines tol (words.mergeSort leTop),
      List.Pairwise (fun a b : Word => a.x0 ≤ b.x0) (g.mergeSort leX0) ∧
      (g.mergeSort leX0).Perm g ∧
      (lineOf g).text = String.intercalate " " ((g.mergeSort leX0).map Word.text) ∧
      (∀ x ∈ g, (lineOf g).x0 ≤ x.x0 ∧ (lineOf g).top ≤ x.top ∧
        x.x1 ≤ (lineOf g).x1 ∧ x.bottom ≤ (lineOf g).bottom) ∧
      ((∃ x ∈ g, (lineOf g).x0 = x.x0) ∧ (∃ x ∈ g, (lineOf g).top = x.top) ∧
       (∃ x ∈ g, (lineOf g).x1 = x.x1) ∧ (∃ x ∈ g, (lineOf g).bottom = x.bottom))) := by
  refine ⟨List.mergeSort_perm _ _, sortedByTop_mergeSort words, rfl,
    groupLines_flatten tol _, ?_, groupLines_boundary tol _, ?_, ?_⟩
  · intro g hg
    exact ⟨groupLines_ne_nil tol _ g hg, groupLines_chain tol _ g hg⟩
  · intro n a b ha hb hd
    exact groupLines_pair tol _ n a b ha hb hd
  · intro g hg
    obtain ⟨hsort, hperm, htext⟩ := lineOf_sorted_text g
    refine ⟨hsort, hperm, htext, ?_, ?_⟩
    · cases g with
      | nil => intro x hx; simp at hx
      | cons w ws => exact (lineOf_envelope w ws).1
    · cases g with
      | nil => exact absurd rfl (groupLines_ne_nil tol _ [] hg)
      | cons w ws => exact (lineOf_envelope w ws).2

/-- C7: the partition of words into lines is independent of the input
order: for any permutation of the word list, the produced groups
correspond pointwise up to permutation; words with identical `top`
always share a line; and within every line the emitted text reads the
words in `x0`-ascending order. -/
theorem cluster_partition_order_independent (tol : ℚ) (htol : 0 < tol)
    (l₁ l₂ : List Word) (hperm : l₁.Perm l₂) :
    List.Forall₂ List.Perm (groupLines tol (l₁.mergeSort leTop))
      (groupLines tol (l₂.mergeSort leTop)) ∧
    (∀ u v, u ∈ l₁ → v ∈ l₁ → u.top = v.top →
      ∃ g ∈ groupLines tol (l₁.mergeSort leTop), u ∈ g ∧ v ∈ g) ∧
    (∀ g ∈ groupLines tol (l₁.mergeSort leTop),
      List.Pairwise (fun a b : Word => a.x0 ≤ b.x0) (g.mergeSort leX0) ∧
      (lineOf g).text = String.intercalate " " ((g.mergeSort leX0).map Word.text)) := by
  refine ⟨?_, ?_, ?_⟩
  · refine groupLines_perm_of_perm tol htol _ _ (sortedByTop_mergeSort l₁)
      (sortedByTop_mergeSort l₂) ?_
    exact (List.mergeSort_perm l₁ leTop).trans
      (hperm.trans (List.mergeSort_perm l₂ leTop).symm)
  · intro u v hu hv htop
    exact groupLines_same_top tol htol _ (sortedByTop_mergeSort l₁) u v
      (List.mem_mergeSort.mpr hu) (List.mem_mergeSort.mpr hv) htop
  · intro g _
    obtain ⟨hsort, _, htext⟩ := lineOf_sorted_text g
    exact ⟨hsort, htext⟩

/-- Witness for C7 at two concrete words of identical top, listed in
the two possible orders. -/
theorem cluster_partition_order_independent_witness :
    List.Forall₂ List.Perm
      (groupLines 3 (([⟨"a", 0, 5, 1, 6⟩, ⟨"b", 2, 5, 3, 6⟩] : List Word).mergeSort leTop))
      (groupLines 3 (([⟨"b", 2, 5, 3, 6⟩, ⟨"a", 0, 5, 1, 6⟩] : List Word).mergeSort leTop)) ∧
    (∀ u v, u ∈ ([⟨"a", 0, 5, 1, 6⟩, ⟨"b", 2, 5, 3, 6⟩] : List Word) →
      v ∈ ([⟨"a", 0, 5, 1, 6⟩, ⟨"b", 2, 5, 3, 6⟩] : List Word) → u.top = v.top →
      ∃ g ∈ groupLines 3 (([⟨"a", 0, 5, 1, 6⟩, ⟨"b", 2, 5, 3, 6⟩] : List Word).mergeSort leTop),
        u ∈ g ∧ v ∈ g) ∧
    (∀ g ∈ groupLines 3 (([⟨"a", 0, 5, 1, 6⟩, ⟨"b", 2, 5, 3, 6⟩] : List Word).mergeSort leTop),
      List.Pairwise (fun a b : Word => a.x0 ≤ b.x0) (g.mergeSort leX0) ∧
      (lineOf g).text = String.intercalate " " ((g.mergeSort leX0).map Word.text)) :=
  cluster_partition_order_independent 3 (by norm_num)
    [⟨"a", 0, 5, 1, 6⟩, ⟨"b", 2, 5, 3, 6⟩] [⟨"b", 2, 5, 3, 6⟩, ⟨"a", 0, 5, 1, 6⟩]
    (List.Perm.swap _ _ _)

/-- Witness for C10 (amended): a centered title followed only by a
table whose build-time extraction yielded no rows (hence
`cols = col_count (extracted []) = 1`) is emitted unmerged, the
no-rows table is skipped, and a raising table aborts. -/
theorem failed_extraction_no_merge_witness :
    col_count TableExtract.extractFailed = 1 ∧
    col_count (TableExtract.extracted []) = 1 ∧
    emitElements 100
        (PElem.text 10 40 60 "Judul" ::
          [PElem.table 50 1 (TableExtract.extracted [])]) =
      (emitElements 100 [PElem.table 50 1 (TableExtract.extracted [])]).map
        (fun rows => RowOut.textRow ⟨"Judul", Align.center, none⟩ :: rows) ∧
    (∀ tp' c, emitElements 100
        (PElem.table tp' c (TableExtract.extracted []) ::
          [PElem.table 50 1 (TableExtract.extracted [])]) =
      emitElements 100 [PElem.table 50 1 (TableExtract.extracted [])]) ∧
    (∀ tp' c, emitElements 100
        (PElem.table tp' c TableExtract.extractFailed ::
          [PElem.table 50 1 (TableExtract.extracted [])]) =
      Except.error "table extract raised") :=
  failed_extraction_no_merge 100 10 40 60 "Judul"
    [PElem.table 50 1 (TableExtract.extracted [])]
    (by intro t c d hm; simp at hm; exact hm.2.1)
    (by simp only [isCentered, decide_eq_true_eq]; norm_num)

end PdfBackend
